import Mathlib

/-!
Verification of the core of `git-absorb` (file `src/lib.rs`) against its
natural-language specification.

Bytes are modelled as `Nat`, byte buffers and file paths as `List Nat`,
and a file is a list of lines (each line a byte sequence, including its
trailing newline when present).  The modules `owned.rs`, `commute.rs` and
`stack.rs` are not among the sources; the parts of them that the claims
need (the owned diff model and the commutation kernel) are modelled from
the specification, and each such definition is marked
`Modelled from the spec:` in its doc comment.  Everything else is
translated from `src/lib.rs`.
-/

namespace Absorb

/-! ### Owned diff model (spec §3, §4.1; `owned.rs` is not among the sources) -/

/-- Modelled from the spec: `owned.rs` defines `Block`, "a contiguous region
of a file", with `start` a 1-based line number in its side of the diff and
`lines` an ordered sequence of lines; the block covers lines
`[start, start + len(lines))` on its side. -/
structure Block where
  start : Nat
  lines : List (List Nat)
  deriving DecidableEq

/-- Modelled from the spec: `owned.rs` defines `Hunk`, a pair
`(removed: Block, added: Block)`; either side may be empty. -/
structure Hunk where
  removed : Block
  added : Block
  deriving DecidableEq

/-- Modelled from the spec: `owned.rs` defines `Hunk.anchors`, "the four
integers `(old_start, old_len, new_start, new_len)` ... derived from the
blocks".  Spec §4.5 states that the tree patcher writes the blob bytes up to
and including the `(removed.start − 1)`-th newline, i.e. the bytes preceding
the hunk's anchor line, while `lib.rs` passes the first component of
`anchors()` directly to `skip_past_nth`; `anchors` therefore yields, for each
side, the zero-based count of lines strictly above the block
(`start − 1` with the spec's 1-based starts) together with the block's
length. -/
def Hunk.anchors (h : Hunk) : Nat × Nat × Nat × Nat :=
  (h.removed.start - 1, h.removed.lines.length, h.added.start - 1, h.added.lines.length)

/-! ### The line-skipping primitive (`skip_past_nth`, `lib.rs` lines 250-262) -/

/-- The ascending list of indices at which `needle` occurs in `haystack`:
the sequence yielded by the `memchr::Memchr` iterator in `skip_past_nth`. -/
def matchIndices (needle : Nat) (haystack : List Nat) : List Nat :=
  (List.range haystack.length).filter (fun i => decide (haystack[i]? = some needle))

/-- Translation of `skip_past_nth` (`lib.rs` lines 250-262): `0` when
`n == 0`, otherwise the `memchr` iterator is advanced past `n - 1` matches
and the next match index plus one is returned, with `haystack.len()` as the
fallback when the iterator is exhausted. -/
def skip_past_nth (needle : Nat) (haystack : List Nat) (n : Nat) : Nat :=
  if n = 0 then 0
  else
    match (matchIndices needle haystack)[n - 1]? with
    | some x => x + 1
    | none => haystack.length

/-! ### The blob-rewriting step of `apply_hunk_to_tree` (`lib.rs` lines 225-244) -/

/-- Translation of the blob-rewriting part of `apply_hunk_to_tree`
(`lib.rs` lines 225-244): split the old content at
`skip_past_nth(b'\n', old_content, old_start)` where `old_start` is the
first component of `hunk.anchors()`, write the prefix, then each added
line, then the old content that remains after skipping
`hunk.removed.lines.len()` further newlines. -/
def apply_hunk_to_blob (old_content : List Nat) (hunk : Hunk) : List Nat :=
  let old_start := hunk.anchors.1
  let pre := old_content.take (skip_past_nth 10 old_content old_start)
  let post := old_content.drop (skip_past_nth 10 old_content old_start)
  pre ++ hunk.added.lines.flatten ++ post.drop (skip_past_nth 10 post hunk.removed.lines.length)

/-! ### UTF-8 lossy conversion (`String::from_utf8_lossy`, used at `lib.rs` line 190) -/

/-- The three-byte UTF-8 encoding of U+FFFD, substituted by
`String::from_utf8_lossy` for each maximal invalid subpart. -/
def lossyRepl : List Nat := [0xEF, 0xBF, 0xBD]

/-- A UTF-8 continuation byte (`0x80 ..= 0xBF`). -/
def isUtf8Cont (b : Nat) : Bool := 0x80 ≤ b && b ≤ 0xBF

/-- Admissible second byte of a three-byte UTF-8 sequence with lead `b1`. -/
def utf8Second3 (b1 b2 : Nat) : Bool :=
  if b1 = 0xE0 then 0xA0 ≤ b2 && b2 ≤ 0xBF
  else if b1 = 0xED then 0x80 ≤ b2 && b2 ≤ 0x9F
  else isUtf8Cont b2

/-- Admissible second byte of a four-byte UTF-8 sequence with lead `b1`. -/
def utf8Second4 (b1 b2 : Nat) : Bool :=
  if b1 = 0xF0 then 0x90 ≤ b2 && b2 ≤ 0xBF
  else if b1 = 0xF4 then 0x80 ≤ b2 && b2 ≤ 0x8F
  else isUtf8Cont b2

/-- `String::from_utf8_lossy` on raw bytes: well-formed UTF-8 sequences are
copied through, and each maximal invalid subpart is replaced by the
replacement character (WHATWG substitution of maximal subparts, as
implemented by Rust's standard library). -/
def utf8Lossy : List Nat → List Nat
  | [] => []
  | [b1] => if b1 ≤ 0x7F then [b1] else lossyRepl
  | [b1, b2] =>
    if b1 ≤ 0x7F then b1 :: utf8Lossy [b2]
    else if 0xC2 ≤ b1 ∧ b1 ≤ 0xDF then
      if isUtf8Cont b2 then [b1, b2] else lossyRepl ++ utf8Lossy [b2]
    else if 0xE0 ≤ b1 ∧ b1 ≤ 0xEF then
      if utf8Second3 b1 b2 then lossyRepl else lossyRepl ++ utf8Lossy [b2]
    else if 0xF0 ≤ b1 ∧ b1 ≤ 0xF4 then
      if utf8Second4 b1 b2 then lossyRepl else lossyRepl ++ utf8Lossy [b2]
    else lossyRepl ++ utf8Lossy [b2]
  | [b1, b2, b3] =>
    if b1 ≤ 0x7F then b1 :: utf8Lossy [b2, b3]
    else if 0xC2 ≤ b1 ∧ b1 ≤ 0xDF then
      if isUtf8Cont b2 then b1 :: b2 :: utf8Lossy [b3]
      else lossyRepl ++ utf8Lossy [b2, b3]
    else if 0xE0 ≤ b1 ∧ b1 ≤ 0xEF then
      if utf8Second3 b1 b2 then
        if isUtf8Cont b3 then [b1, b2, b3] else lossyRepl ++ utf8Lossy [b3]
      else lossyRepl ++ utf8Lossy [b2, b3]
    else if 0xF0 ≤ b1 ∧ b1 ≤ 0xF4 then
      if utf8Second4 b1 b2 then
        if isUtf8Cont b3 then lossyRepl else lossyRepl ++ utf8Lossy [b3]
      else lossyRepl ++ utf8Lossy [b2, b3]
    else lossyRepl ++ utf8Lossy [b2, b3]
  | b1 :: b2 :: b3 :: b4 :: t =>
    if b1 ≤ 0x7F then b1 :: utf8Lossy (b2 :: b3 :: b4 :: t)
    else if 0xC2 ≤ b1 ∧ b1 ≤ 0xDF then
      if isUtf8Cont b2 then b1 :: b2 :: utf8Lossy (b3 :: b4 :: t)
      else lossyRepl ++ utf8Lossy (b2 :: b3 :: b4 :: t)
    else if 0xE0 ≤ b1 ∧ b1 ≤ 0xEF then
      if utf8Second3 b1 b2 then
        if isUtf8Cont b3 then b1 :: b2 :: b3 :: utf8Lossy (b4 :: t)
        else lossyRepl ++ utf8Lossy (b3 :: b4 :: t)
      else lossyRepl ++ utf8Lossy (b2 :: b3 :: b4 :: t)
    else if 0xF0 ≤ b1 ∧ b1 ≤ 0xF4 then
      if utf8Second4 b1 b2 then
        if isUtf8Cont b3 then
          if isUtf8Cont b4 then b1 :: b2 :: b3 :: b4 :: utf8Lossy t
          else lossyRepl ++ utf8Lossy (b4 :: t)
        else lossyRepl ++ utf8Lossy (b3 :: b4 :: t)
      else lossyRepl ++ utf8Lossy (b2 :: b3 :: b4 :: t)
    else lossyRepl ++ utf8Lossy (b2 :: b3 :: b4 :: t)

/-- Well-formed UTF-8 byte sequences (the sequences on which
`String::from_utf8_lossy` is the identity). -/
inductive Utf8Valid : List Nat → Prop where
  | nil : Utf8Valid []
  | one {b : Nat} {t : List Nat} : b ≤ 0x7F → Utf8Valid t → Utf8Valid (b :: t)
  | two {b1 b2 : Nat} {t : List Nat} : 0xC2 ≤ b1 → b1 ≤ 0xDF → isUtf8Cont b2 = true →
      Utf8Valid t → Utf8Valid (b1 :: b2 :: t)
  | three {b1 b2 b3 : Nat} {t : List Nat} : 0xE0 ≤ b1 → b1 ≤ 0xEF →
      utf8Second3 b1 b2 = true → isUtf8Cont b3 = true →
      Utf8Valid t → Utf8Valid (b1 :: b2 :: b3 :: t)
  | four {b1 b2 b3 b4 : Nat} {t : List Nat} : 0xF0 ≤ b1 → b1 ≤ 0xF4 →
      utf8Second4 b1 b2 = true → isUtf8Cont b3 = true → isUtf8Cont b4 = true →
      Utf8Valid t → Utf8Valid (b1 :: b2 :: b3 :: b4 :: t)

/-! ### Path splitting (`path_str.split("/")` and `join("/")`, `lib.rs` lines 192-194) -/

/-- `str::split` on the separator byte `47` (`'/'`): always returns at least
one (possibly empty) component. -/
def splitPath : List Nat → List (List Nat)
  | [] => [[]]
  | b :: t =>
    if b = 47 then [] :: splitPath t
    else
      match splitPath t with
      | [] => [[b]]
      | s :: rest => (b :: s) :: rest

/-- `join("/")`: interleave the separator byte `47` between components. -/
def joinSlash : List (List Nat) → List Nat
  | [] => []
  | x :: xs =>
    match xs with
    | [] => x
    | _ :: _ => x ++ 47 :: joinSlash xs

/-! ### Trees and the tree patcher (`apply_hunk_to_tree`, `lib.rs` lines 183-248) -/

/-- Git objects reachable from a tree, modelled structurally (git objects
are content-addressed, so object ids are identified with the objects they
denote): a blob with raw byte content, or a tree with an ordered entry list
`(name bytes, filemode, object)`. -/
inductive TreeObj where
  | blob (content : List Nat)
  | tree (entries : List (List Nat × Nat × TreeObj))

/-- `treebuilder.get(name)`: look an entry up by exact byte name, returning
its filemode and object. -/
def treeGet : List (List Nat × Nat × TreeObj) → List Nat → Option (Nat × TreeObj)
  | [], _ => none
  | e :: rest, name => if e.1 = name then some (e.2.1, e.2.2) else treeGet rest name

/-- `treebuilder.insert(name, id, filemode)`: replace the entry with that
name, or append a new entry. -/
def treeInsert : List (List Nat × Nat × TreeObj) → List Nat → Nat → TreeObj →
    List (List Nat × Nat × TreeObj)
  | [], name, mode, obj => [(name, mode, obj)]
  | e :: rest, name, mode, obj =>
    if e.1 = name then (name, mode, obj) :: rest
    else e :: treeInsert rest name mode obj

/-- Translation of `apply_hunk_to_tree` (`lib.rs` lines 183-248), with an
explicit recursion-depth budget `fuel` standing in for Rust's unbounded
recursion.  The path is first passed through `String::from_utf8_lossy` and
split on `"/"` (lines 190-192); a multi-component path descends through the
sub-tree named by the first (lossy) component and re-joins the remainder
(lines 193-210); a single-component path rewrites the blob found under the
raw byte path (lines 213-246). -/
def apply_hunk_to_tree_go (fuel : Nat) (base : TreeObj) (hunk : Hunk) (path : List Nat) :
    Except String TreeObj :=
  match fuel with
  | 0 => .error "recursion budget exhausted"
  | fuel + 1 =>
    match base with
    | .blob _ => .error "base object is not a tree"
    | .tree entries =>
      let complex := splitPath (utf8Lossy path)
      if 1 < complex.length then
        let first := complex.headD []
        let rest := joinSlash complex.tail
        match treeGet entries first with
        | none => .error "could not find sub tree entry for path"
        | some (mode, sub) =>
          match sub with
          | .blob _ => .error "oid for path component is not a tree"
          | .tree _ =>
            match apply_hunk_to_tree_go fuel sub hunk rest with
            | .error e => .error e
            | .ok newSub => .ok (.tree (treeInsert entries first mode newSub))
      else
        match treeGet entries path with
        | none => .error "could not find leaf tree entry for path"
        | some (mode, obj) =>
          match obj with
          | .tree _ => .error "leaf entry is not a blob"
          | .blob content =>
            .ok (.tree (treeInsert entries path mode (.blob (apply_hunk_to_blob content hunk))))

/-- `apply_hunk_to_tree` at its natural recursion budget: the recursion
descends one path component per call and a path of `n` bytes has at most
`n + 1` slash-separated components (the lossy conversion never introduces
the separator byte), so a budget of `path.length + 1` is never exhausted. -/
def apply_hunk_to_tree (base : TreeObj) (hunk : Hunk) (path : List Nat) :
    Except String TreeObj :=
  apply_hunk_to_tree_go (path.length + 1) base hunk path

/-- Modelled from the spec: the byte-exact tree patcher the spec describes
(§4.5 together with the design note "Paths as raw bytes"), used as the
refinement reference for the actual `apply_hunk_to_tree`.  It is identical
to `apply_hunk_to_tree_go` except that the path is split on `47` as raw
bytes, without the lossy UTF-8 conversion. -/
def apply_hunk_to_tree_spec_go (fuel : Nat) (base : TreeObj) (hunk : Hunk) (path : List Nat) :
    Except String TreeObj :=
  match fuel with
  | 0 => .error "recursion budget exhausted"
  | fuel + 1 =>
    match base with
    | .blob _ => .error "base object is not a tree"
    | .tree entries =>
      let complex := splitPath path
      if 1 < complex.length then
        let first := complex.headD []
        let rest := joinSlash complex.tail
        match treeGet entries first with
        | none => .error "could not find sub tree entry for path"
        | some (mode, sub) =>
          match sub with
          | .blob _ => .error "oid for path component is not a tree"
          | .tree _ =>
            match apply_hunk_to_tree_spec_go fuel sub hunk rest with
            | .error e => .error e
            | .ok newSub => .ok (.tree (treeInsert entries first mode newSub))
      else
        match treeGet entries path with
        | none => .error "could not find leaf tree entry for path"
        | some (mode, obj) =>
          match obj with
          | .tree _ => .error "leaf entry is not a blob"
          | .blob content =>
            .ok (.tree (treeInsert entries path mode (.blob (apply_hunk_to_blob content hunk))))

/-- The byte-exact reference patcher at the same recursion budget. -/
def apply_hunk_to_tree_spec (base : TreeObj) (hunk : Hunk) (path : List Nat) :
    Except String TreeObj :=
  apply_hunk_to_tree_spec_go (path.length + 1) base hunk path

/-- Whether an `Except` computation succeeded. -/
def exceptIsOk {α : Type} : Except String α → Bool
  | .ok _ => true
  | .error _ => false

/-! ### The commutation kernel (spec §4.2; `commute.rs` is not among the sources) -/

/-- Modelled from the spec: `commute.rs` defines the pairwise commutation
`commute(H, E)` of a later hunk `h` past an earlier hunk `e` on the same
file (§4.2).  The pair commutes iff `h`'s removed range lies entirely above
`e`'s added region, or entirely below it, or `h` is a pure insertion not
anchored strictly inside `e`'s addition; on success `h`'s coordinates are
returned unchanged when `h` was above, and shifted down by
`delta = e.added.len − e.removed.len` when `h` was below. -/
def commute (h e : Hunk) : Option Hunk :=
  let delta : Int := (e.added.lines.length : Int) - (e.removed.lines.length : Int)
  if h.removed.start + h.removed.lines.length ≤ e.added.start then
    some h
  else if e.added.start + e.added.lines.length ≤ h.removed.start then
    some ⟨⟨((h.removed.start : Int) - delta).toNat, h.removed.lines⟩,
          ⟨((h.added.start : Int) - delta).toNat, h.added.lines⟩⟩
  else if h.removed.lines.length = 0 ∧
      (h.removed.start ≤ e.added.start ∨
        e.added.start + e.added.lines.length ≤ h.removed.start) then
    if h.removed.start ≤ e.added.start then some h
    else
      some ⟨⟨((h.removed.start : Int) - delta).toNat, h.removed.lines⟩,
            ⟨((h.added.start : Int) - delta).toNat, h.added.lines⟩⟩
  else none

/-- Modelled from the spec: `commute.rs` defines `commute_diff_before(H, Es)`
(§4.2), commuting `H` past each hunk of an earlier patch in order; any
pairwise conflict makes the whole operation a conflict. -/
def commute_diff_before (h : Hunk) : List Hunk → Option Hunk
  | [] => some h
  | e :: rest =>
    match commute h e with
    | some h2 => commute_diff_before h2 rest
    | none => none

/-! ### File application semantics for hunks (spec §3, §8.1) -/

/-- Applying a hunk to a file, the file being a list of lines: the
`removed.lines.length` lines starting at 1-based line `removed.start` are
replaced by `added.lines`. -/
def applyHunk (file : List (List Nat)) (h : Hunk) : List (List Nat) :=
  file.take (h.removed.start - 1) ++ h.added.lines ++
    file.drop (h.removed.start - 1 + h.removed.lines.length)

/-- The retranslation of the earlier hunk `e` that must accompany
`commute h e` for file-equivalence: when `h` commutes entirely above `e`'s
added region, `e`'s coordinates shift by `h`'s net line delta; when `h`
commutes below, `e` is unchanged.  (The spec's kernel returns only the
translated later hunk.) -/
def commuteEarlier (e h : Hunk) : Hunk :=
  let hdelta : Int := (h.added.lines.length : Int) - (h.removed.lines.length : Int)
  if h.removed.start + h.removed.lines.length ≤ e.added.start then
    ⟨⟨((e.removed.start : Int) + hdelta).toNat, e.removed.lines⟩,
     ⟨((e.added.start : Int) + hdelta).toNat, e.added.lines⟩⟩
  else e

/-! ### The absorption driver (`run`, `lib.rs` lines 21-181) -/

/-- The `git2::Delta` status values carried by a patch. -/
inductive Delta where
  | Added
  | Deleted
  | Modified
  | Renamed
  | Copied
  | Typechange
  | Unmodified
  | Ignored
  | Untracked
  | Unreadable
  | Conflicted
  deriving DecidableEq

/-- A stack commit as the driver sees it: its (40-hex) object id rendered as
a string and its optional summary line. -/
structure Commit where
  id : String
  summary : Option String
  deriving DecidableEq

/-- Modelled from the spec: a patch of the owned diff model (§3), with byte
old/new paths, a status and an ordered hunk list. -/
structure Patch where
  old_path : List Nat
  new_path : List Nat
  status : Delta
  hunks : List Hunk
  deriving DecidableEq

/-- Modelled from the spec: `owned::Diff::by_new` (§4.1) returns the patch
whose `new_path` equals the given path, by exact byte equality. -/
def by_new (patches : List Patch) (path : List Nat) : Option Patch :=
  patches.find? (fun p => decide (p.new_path = path))

/-- The log events `run` emits (`debug!` and `info!` calls in `lib.rs`),
with the payloads the claims need. -/
inductive Event where
  | skippedNonModified (path : List Nat) (status : Delta)
  | commutingHunk (path : List Nat)
  | skippedNoPath (c : Commit)
  | foundByAdd (c : Commit)
  | changedPath (c : Commit) (path : List Nat)
  | commutedWith (c : Commit)
  | foundByConflict (c : Commit)
  | noDestination
  | committed (n : Nat)
  | wouldHaveCommitted (c : Commit)
  deriving DecidableEq

/-- Whether an event records an actual commit write. -/
def Event.isCommitted : Event → Bool
  | .committed _ => true
  | _ => false

/-- A commit written by `repo.commit` (`lib.rs` lines 154-162): its message,
author and committer signature, tree, and sole parent.  Commits are named by
index: parent `0` is the original HEAD commit and parent `i + 1` is the
`i`-th emitted fixup. -/
structure Emitted where
  message : String
  author : String
  committer : String
  tree : TreeObj
  parent : Nat

/-- The driver's mutable state: the rolling `head_tree` and `head_commit`
(`lib.rs` lines 63, 71, 152-162), the emitted fixups, and the log. -/
structure RunState where
  headTree : TreeObj
  headCommit : Nat
  emitted : List Emitted
  log : List Event

/-- The `'commit` loop of `run` (`lib.rs` lines 96-140): walk the stack
newest-first looking for the first commit the hunk cannot commute with.  A
commit whose diff does not touch the current path is skipped; a patch with
status `Added` designates the commit as destination immediately; otherwise
the search path is retranslated to the patch's `old_path` and the hunk is
commuted past the patch's hunks, a conflict designating the commit as
destination.  Returns the destination (if any) together with the log events
of the walk. -/
def findDest : List (Commit × List Patch) → Hunk → List Nat → Option Commit × List Event
  | [], _, _ => (none, [])
  | (c, diff) :: rest, hunk, path =>
    match by_new diff path with
    | none =>
      let r := findDest rest hunk path
      (r.1, Event.skippedNoPath c :: r.2)
    | some np =>
      if np.status = Delta.Added then (some c, [Event.foundByAdd c])
      else
        let renameEvents := if path ≠ np.old_path then [Event.changedPath c np.old_path] else []
        match commute_diff_before hunk np.hunks with
        | some h2 =>
          let r := findDest rest h2 np.old_path
          (r.1, renameEvents ++ Event.commutedWith c :: r.2)
        | none => (some c, renameEvents ++ [Event.foundByConflict c])

/-- The fixup commit message (`lib.rs` lines 158-159):
`format!("fixup! {} {}", dest_commit.id(), dest_commit.summary().unwrap_or("<no message>"))`. -/
def fixupMessage (dest : Commit) : String :=
  "fixup! " ++ dest.id ++ " " ++ dest.summary.getD "<no message>"

/-- The body of the `'hunk` loop of `run` (`lib.rs` lines 74-177) for one
hunk of a `Modified` index patch: find the destination; with none, log and
move on; with a destination, either log the would-be commit (dry run) or
patch the rolling head tree with the original index hunk and append a fixup
commit whose parent is the current head. -/
def processHunk (dry : Bool) (sig : String) (stack : List (Commit × List Patch))
    (oldPath : List Nat) (hunk : Hunk) (s : RunState) : Except String RunState :=
  let s1 : RunState := { s with log := s.log ++ [Event.commutingHunk oldPath] }
  match findDest stack hunk oldPath with
  | (none, es) => .ok { s1 with log := s1.log ++ es ++ [Event.noDestination] }
  | (some dest, es) =>
    let s2 : RunState := { s1 with log := s1.log ++ es }
    if dry then .ok { s2 with log := s2.log ++ [Event.wouldHaveCommitted dest] }
    else
      match apply_hunk_to_tree s2.headTree hunk oldPath with
      | .error e => .error e
      | .ok t =>
        .ok { headTree := t,
              headCommit := s2.emitted.length + 1,
              emitted := s2.emitted ++
                [{ message := fixupMessage dest, author := sig, committer := sig,
                   tree := t, parent := s2.headCommit }],
              log := s2.log ++ [Event.committed (s2.emitted.length + 1)] }

/-- Fold of `processHunk` over a patch's hunks, stopping at the first
error, as the `'hunk` loop with the `?` operator does. -/
def processHunks (dry : Bool) (sig : String) (stack : List (Commit × List Patch))
    (oldPath : List Nat) : List Hunk → RunState → Except String RunState
  | [], s => .ok s
  | h :: hs, s =>
    match processHunk dry sig stack oldPath h s with
    | .error e => .error e
    | .ok s2 => processHunks dry sig stack oldPath hs s2

/-- One iteration of the `'patch` loop of `run` (`lib.rs` lines 73-82): a
patch whose status is not `Modified` is skipped wholesale with a log entry
(the check sits in the hunk loop and jumps back to `'patch`, so a patch
with no hunks logs nothing); otherwise each hunk is processed in order. -/
def processPatch (dry : Bool) (sig : String) (stack : List (Commit × List Patch))
    (p : Patch) (s : RunState) : Except String RunState :=
  match p.hunks with
  | [] => .ok s
  | _ :: _ =>
    if p.status ≠ Delta.Modified then
      .ok { s with log := s.log ++ [Event.skippedNonModified p.new_path p.status] }
    else processHunks dry sig stack p.old_path p.hunks s

/-- Fold of `processPatch` over the index patches. -/
def processPatches (dry : Bool) (sig : String) (stack : List (Commit × List Patch)) :
    List Patch → RunState → Except String RunState
  | [], s => .ok s
  | p :: ps, s =>
    match processPatch dry sig stack p s with
    | .error e => .error e
    | .ok s2 => processPatches dry sig stack ps s2

/-- The driver `run` (`lib.rs` lines 21-181) on its parsed inputs: the
stack (newest first, each commit with its parsed diff), the index diff, the
initial HEAD tree, and the configured signature.  Returns the final state,
whose `emitted` list holds the fixup commits written. -/
def runModel (dry : Bool) (sig : String) (stack : List (Commit × List Patch))
    (index : List Patch) (t0 : TreeObj) : Except String RunState :=
  processPatches dry sig stack index { headTree := t0, headCommit := 0, emitted := [], log := [] }

/-- The final head tree of a run, when it succeeded. -/
def resultHeadTree : Except String RunState → Option TreeObj
  | .ok s => some s.headTree
  | .error _ => none

/-- The final head commit of a run, when it succeeded. -/
def resultHeadCommit : Except String RunState → Option Nat
  | .ok s => some s.headCommit
  | .error _ => none

/-- The emitted fixup commits of a run, when it succeeded. -/
def resultEmitted : Except String RunState → Option (List Emitted)
  | .ok s => some s.emitted
  | .error _ => none

/-- The log of a run, when it succeeded. -/
def resultLog : Except String RunState → Option (List Event)
  | .ok s => some s.log
  | .error _ => none

/-- A hexadecimal digit character. -/
def isHexChar (c : Char) : Bool := c.isDigit || (97 ≤ c.toNat && c.toNat ≤ 102)

/-- A 40-character lowercase hexadecimal string (a full git object id). -/
def isHex40 (s : String) : Bool := s.length == 40 && s.data.all isHexChar

theorem matchIndices_nil (needle : Nat) : matchIndices needle [] = [] := rfl

theorem matchIndices_cons (needle b : Nat) (t : List Nat) :
    matchIndices needle (b :: t) =
      (if b = needle then [0] else []) ++ (matchIndices needle t).map (· + 1) := by
  unfold matchIndices
  rw [List.length_cons, List.range_succ_eq_map, List.filter_cons]
  have hmap : List.filter (fun i => decide ((b :: t)[i]? = some needle))
        (List.map Nat.succ (List.range t.length))
      = List.map Nat.succ
        (List.filter (fun i => decide (t[i]? = some needle)) (List.range t.length)) := by
    rw [List.filter_map]
    have hfun : (fun i => decide ((b :: t)[i]? = some needle)) ∘ Nat.succ
        = fun i => decide (t[i]? = some needle) := by
      funext i
      simp [Function.comp]
    rw [hfun]
  rw [hmap]
  have hsucc : List.map Nat.succ
        (List.filter (fun i => decide (t[i]? = some needle)) (List.range t.length))
      = List.map (· + 1)
        (List.filter (fun i => decide (t[i]? = some needle)) (List.range t.length)) := by
    simp [Nat.succ_eq_add_one]
  rw [hsucc]
  by_cases hb : b = needle <;> simp [hb]

theorem skip_past_nth_zero (needle : Nat) (haystack : List Nat) :
    skip_past_nth needle haystack 0 = 0 := rfl

theorem skip_past_nth_succ (needle : Nat) (haystack : List Nat) (n : Nat) :
    skip_past_nth needle haystack (n + 1) =
      match (matchIndices needle haystack)[n]? with
      | some x => x + 1
      | none => haystack.length := by
  simp [skip_past_nth]

theorem skip_past_nth_cons (needle b : Nat) (t : List Nat) (n : Nat) :
    skip_past_nth needle (b :: t) (n + 1) =
      1 + (if b = needle then skip_past_nth needle t n else skip_past_nth needle t (n + 1)) := by
  by_cases hb : b = needle
  · rw [if_pos hb]
    cases n with
    | zero =>
      rw [skip_past_nth_zero, skip_past_nth_succ, matchIndices_cons, if_pos hb]
      have h0 : (([0] : List Nat) ++ (matchIndices needle t).map (· + 1))[0]? = some 0 := by
        rw [List.getElem?_append_left (by simp)]
        rfl
      rw [h0]
    | succ m =>
      rw [skip_past_nth_succ, skip_past_nth_succ, matchIndices_cons, if_pos hb]
      have hidx : (([0] ++ (matchIndices needle t).map (· + 1)))[m + 1]? =
          ((matchIndices needle t)[m]?).map (· + 1) := by
        rw [List.getElem?_append_right (by simp)]
        simp
      rw [hidx]
      cases hx : (matchIndices needle t)[m]? with
      | some x =>
        show x + 1 + 1 = 1 + (x + 1)
        omega
      | none =>
        show (b :: t).length = 1 + t.length
        rw [List.length_cons]
        omega
  · rw [if_neg hb]
    rw [skip_past_nth_succ, skip_past_nth_succ, matchIndices_cons, if_neg hb, List.nil_append,
      List.getElem?_map]
    cases hx : (matchIndices needle t)[n]? with
    | some x =>
      show x + 1 + 1 = 1 + (x + 1)
      omega
    | none =>
      show (b :: t).length = 1 + t.length
      rw [List.length_cons]
      omega

/-- The characterization of `skip_past_nth` claimed by the spec: for
`n ≥ 1`, when the buffer holds at least `n` occurrences the returned prefix
length covers exactly `n` of them and lands immediately after the `n`-th
occurrence; with fewer than `n` occurrences the whole buffer length is
returned. -/
theorem skip_past_nth_spec (needle : Nat) (buf : List Nat) (n : Nat) (h1 : 1 ≤ n) :
    (n ≤ buf.count needle →
      (buf.take (skip_past_nth needle buf n)).count needle = n ∧
      1 ≤ skip_past_nth needle buf n ∧
      buf[skip_past_nth needle buf n - 1]? = some needle) ∧
    (buf.count needle < n → skip_past_nth needle buf n = buf.length) := by
  induction buf generalizing n with
  | nil =>
    constructor
    · intro hc
      simp [List.count_nil] at hc
      omega
    · intro _
      cases n with
      | zero => omega
      | succ m => simp [skip_past_nth, matchIndices_nil]
  | cons b t ih =>
    obtain ⟨m, rfl⟩ : ∃ m, n = m + 1 := ⟨n - 1, by omega⟩
    rw [skip_past_nth_cons]
    by_cases hb : b = needle
    · subst hb
      rw [if_pos rfl]
      cases m with
      | zero =>
        constructor
        · intro _
          refine ⟨?_, by omega, ?_⟩
          · simp [skip_past_nth_zero, List.count_cons_self]
          · simp [skip_past_nth_zero]
        · intro hc
          rw [List.count_cons_self] at hc
          omega
      | succ k =>
        have ihk := ih (k + 1) (by omega)
        constructor
        · intro hc
          rw [List.count_cons_self] at hc
          have hle : k + 1 ≤ t.count b := by omega
          obtain ⟨hcnt, hge, hidx⟩ := ihk.1 hle
          refine ⟨?_, by omega, ?_⟩
          · rw [show 1 + skip_past_nth b t (k + 1) = skip_past_nth b t (k + 1) + 1 by omega]
            rw [List.take_succ_cons, List.count_cons_self, hcnt]
          · rw [show 1 + skip_past_nth b t (k + 1) - 1 = skip_past_nth b t (k + 1) by omega]
            obtain ⟨j, hj⟩ : ∃ j, skip_past_nth b t (k + 1) = j + 1 :=
              ⟨skip_past_nth b t (k + 1) - 1, by omega⟩
            rw [hj, List.getElem?_cons_succ]
            rw [hj] at hidx
            simpa using hidx
        · intro hc
          rw [List.count_cons_self] at hc
          have hlen := ihk.2 (by omega)
          rw [hlen, List.length_cons]
          omega
    · rw [if_neg hb]
      have ihn := ih (m + 1) (by omega)
      have hne : needle ≠ b := fun h => hb h.symm
      constructor
      · intro hc
        rw [List.count_cons_of_ne hne] at hc
        obtain ⟨hcnt, hge, hidx⟩ := ihn.1 hc
        refine ⟨?_, by omega, ?_⟩
        · rw [show 1 + skip_past_nth needle t (m + 1) = skip_past_nth needle t (m + 1) + 1 by omega]
          rw [List.take_succ_cons, List.count_cons_of_ne hne, hcnt]
        · rw [show 1 + skip_past_nth needle t (m + 1) - 1 = skip_past_nth needle t (m + 1) by omega]
          obtain ⟨j, hj⟩ : ∃ j, skip_past_nth needle t (m + 1) = j + 1 :=
            ⟨skip_past_nth needle t (m + 1) - 1, by omega⟩
          rw [hj, List.getElem?_cons_succ]
          rw [hj] at hidx
          simpa using hidx
      · intro hc
        rw [List.count_cons_of_ne hne] at hc
        have hlen := ihn.2 hc
        rw [hlen, List.length_cons]
        omega

/-- C3: for every byte buffer `buf`, `skip_past_nth(needle, buf, 0)`
returns `0`; and for every `n ≥ 1` it returns the byte offset immediately
after the `n`-th occurrence of the needle (so the prefix of that length
contains exactly `n` occurrences and ends just past one), or `len(buf)`
when the buffer contains fewer than `n` occurrences. -/
theorem c3_skip_past_nth_characterization (needle : Nat) (buf : List Nat) (n : Nat) :
    skip_past_nth needle buf 0 = 0 ∧
    (1 ≤ n →
      (n ≤ buf.count needle →
        (buf.take (skip_past_nth needle buf n)).count needle = n ∧
        1 ≤ skip_past_nth needle buf n ∧
        buf[skip_past_nth needle buf n - 1]? = some needle) ∧
      (buf.count needle < n → skip_past_nth needle buf n = buf.length)) :=
  ⟨skip_past_nth_zero needle buf, fun h1 => skip_past_nth_spec needle buf n h1⟩

theorem c3_witness :
    ([97, 10, 98, 10, 99].take (skip_past_nth 10 [97, 10, 98, 10, 99] 2)).count 10 = 2 ∧
    skip_past_nth 10 [97, 10, 98, 10, 99] 3 = 5 :=
  ⟨(((c3_skip_past_nth_characterization 10 [97, 10, 98, 10, 99] 2).2 (by decide)).1
      (by decide)).1,
   ((c3_skip_past_nth_characterization 10 [97, 10, 98, 10, 99] 3).2 (by decide)).2 (by decide)⟩

/-- C2: in `apply_hunk_to_tree`, for every blob content and every hunk, the
bytes written before the hunk's added lines are exactly the blob content up
to and including the `(old_start − 1)`-th newline, where
`old_start = hunk.removed.start` is the 1-based line number of the hunk's
anchor: the rewritten blob decomposes as that prefix, then the added lines,
then the remainder after skipping the removed lines; when `old_start = 1`
nothing is written before the added lines; and the prefix contains exactly
`old_start − 1` newlines (or is the whole blob when fewer exist). -/
theorem c2_apply_hunk_pre_bytes (content : List Nat) (hunk : Hunk)
    (hs : 1 ≤ hunk.removed.start) :
    apply_hunk_to_blob content hunk =
      content.take (skip_past_nth 10 content (hunk.removed.start - 1)) ++
      hunk.added.lines.flatten ++
      (content.drop (skip_past_nth 10 content (hunk.removed.start - 1))).drop
        (skip_past_nth 10 (content.drop (skip_past_nth 10 content (hunk.removed.start - 1)))
          hunk.removed.lines.length) ∧
    (hunk.removed.start = 1 →
      content.take (skip_past_nth 10 content (hunk.removed.start - 1)) = []) ∧
    (hunk.removed.start - 1 ≤ content.count 10 →
      (content.take (skip_past_nth 10 content (hunk.removed.start - 1))).count 10 =
        hunk.removed.start - 1) ∧
    (content.count 10 < hunk.removed.start - 1 →
      content.take (skip_past_nth 10 content (hunk.removed.start - 1)) = content) := by
  refine ⟨rfl, ?_, ?_, ?_⟩
  · intro h1
    rw [h1]
    simp [skip_past_nth_zero]
  · intro hc
    rcases Nat.eq_zero_or_pos (hunk.removed.start - 1) with h0 | hpos
    · rw [h0]
      simp [skip_past_nth_zero]
    · exact ((skip_past_nth_spec 10 content (hunk.removed.start - 1) hpos).1 hc).1
  · intro hc
    have hpos : 1 ≤ hunk.removed.start - 1 := by omega
    have hlen := (skip_past_nth_spec 10 content (hunk.removed.start - 1) hpos).2 hc
    rw [hlen, List.take_length]

theorem c2_witness :
    ([97, 10, 98, 10, 99, 10].take
        (skip_past_nth 10 [97, 10, 98, 10, 99, 10]
          ((Hunk.mk (Block.mk 2 [[98, 10]]) (Block.mk 2 [[66, 10]])).removed.start - 1))).count 10 =
      (Hunk.mk (Block.mk 2 [[98, 10]]) (Block.mk 2 [[66, 10]])).removed.start - 1 :=
  (c2_apply_hunk_pre_bytes [97, 10, 98, 10, 99, 10]
    (Hunk.mk (Block.mk 2 [[98, 10]]) (Block.mk 2 [[66, 10]])) (by decide)).2.2.1 (by decide)

theorem applyHunk_append_left (P Q : List (List Nat)) (h : Hunk)
    (hle : h.removed.start - 1 + h.removed.lines.length ≤ P.length) :
    applyHunk (P ++ Q) h = applyHunk P h ++ Q := by
  unfold applyHunk
  rw [List.take_append_of_le_length (by omega), List.drop_append_of_le_length (by omega)]
  simp [List.append_assoc]

theorem applyHunk_append_right (P Q : List (List Nat)) (h : Hunk)
    (hge : P.length ≤ h.removed.start - 1) :
    applyHunk (P ++ Q) h =
      P ++ applyHunk Q ⟨⟨h.removed.start - P.length, h.removed.lines⟩, h.added⟩ := by
  unfold applyHunk
  dsimp only
  rw [List.take_append_eq_append_take, List.drop_append_eq_append_drop,
    List.take_of_length_le hge,
    List.drop_eq_nil_of_le
      (show P.length ≤ h.removed.start - 1 + h.removed.lines.length by omega),
    List.nil_append,
    show h.removed.start - 1 - P.length = h.removed.start - P.length - 1 by omega,
    show h.removed.start - 1 + h.removed.lines.length - P.length
      = h.removed.start - P.length - 1 + h.removed.lines.length by omega]
  simp [List.append_assoc]

theorem applyHunk_eq_of (f : List (List Nat)) (h1 h2 : Hunk)
    (hr : h1.removed.start = h2.removed.start)
    (hl : h1.removed.lines.length = h2.removed.lines.length)
    (ha : h1.added.lines = h2.added.lines) :
    applyHunk f h1 = applyHunk f h2 := by
  unfold applyHunk
  rw [hr, hl, ha]

theorem applyHunk_mk (f : List (List Nat)) (s als : Nat) (R A : List (List Nat)) :
    applyHunk f ⟨⟨s, R⟩, ⟨als, A⟩⟩ = f.take (s - 1) ++ A ++ f.drop (s - 1 + R.length) := rfl

theorem applyHunk_mk_append_left (P Q : List (List Nat)) (s als : Nat) (R A : List (List Nat))
    (hle : s - 1 + R.length ≤ P.length) :
    applyHunk (P ++ Q) ⟨⟨s, R⟩, ⟨als, A⟩⟩ = applyHunk P ⟨⟨s, R⟩, ⟨als, A⟩⟩ ++ Q :=
  applyHunk_append_left P Q _ hle

theorem applyHunk_mk_append_right (P Q : List (List Nat)) (s als : Nat) (R A : List (List Nat))
    (hge : P.length ≤ s - 1) :
    applyHunk (P ++ Q) ⟨⟨s, R⟩, ⟨als, A⟩⟩ =
      P ++ applyHunk Q ⟨⟨s - P.length, R⟩, ⟨als, A⟩⟩ :=
  applyHunk_append_right P Q _ hge

/-- The exchange law satisfied by the spec's commutation kernel: applying
`E` then `H` equals applying `commute(H, E)` and then the retranslated
earlier hunk `commuteEarlier E H`. -/
theorem commute_exchange (f : List (List Nat)) (e h h2 : Hunk)
    (hea : e.added.start = e.removed.start)
    (her : 1 ≤ e.removed.start)
    (hhr : 1 ≤ h.removed.start)
    (hbound : e.removed.start - 1 + e.removed.lines.length ≤ f.length)
    (hcomm : commute h e = some h2) :
    applyHunk (applyHunk f h2) (commuteEarlier e h) = applyHunk (applyHunk f e) h := by
  obtain ⟨⟨er, EL⟩, ⟨ea, EA⟩⟩ := e
  obtain ⟨⟨hr, HL⟩, ⟨ha, HA⟩⟩ := h
  dsimp only at hea her hhr hbound
  subst hea
  simp only [commute] at hcomm
  split_ifs at hcomm with hc1 hc2 hc3 hc4
  · -- case 1: `h` entirely above `e`'s added region; `h2 = h`.
    obtain rfl := Option.some.inj hcomm
    have hceq : commuteEarlier ⟨⟨ea, EL⟩, ⟨ea, EA⟩⟩ ⟨⟨hr, HL⟩, ⟨ha, HA⟩⟩ =
        ⟨⟨ea + HA.length - HL.length, EL⟩, ⟨ea + HA.length - HL.length, EA⟩⟩ := by
      simp only [commuteEarlier, if_pos hc1]
      rw [show ((ea : Int) + ((HA.length : Int) - (HL.length : Int))).toNat =
        ea + HA.length - HL.length by omega]
    rw [hceq]
    have hR1 : applyHunk f ⟨⟨ea, EL⟩, ⟨ea, EA⟩⟩ =
        f.take (ea - 1) ++ (EA ++ f.drop (ea - 1 + EL.length)) := by
      rw [applyHunk_mk, List.append_assoc]
    rw [hR1,
      applyHunk_mk_append_left _ _ _ _ _ _ (by rw [List.length_take]; omega)]
    have hL1 : applyHunk f ⟨⟨hr, HL⟩, ⟨ha, HA⟩⟩ =
        applyHunk (f.take (ea - 1)) ⟨⟨hr, HL⟩, ⟨ha, HA⟩⟩ ++ f.drop (ea - 1) := by
      conv_lhs => rw [← List.take_append_drop (ea - 1) f]
      exact applyHunk_mk_append_left _ _ _ _ _ _ (by rw [List.length_take]; omega)
    rw [hL1]
    have hPlen : (applyHunk (f.take (ea - 1)) ⟨⟨hr, HL⟩, ⟨ha, HA⟩⟩).length =
        ea - 1 + HA.length - HL.length := by
      rw [applyHunk_mk, List.length_append, List.length_append, List.length_take,
        List.length_take, List.length_drop, List.length_take]
      omega
    rw [applyHunk_mk_append_right _ _ _ _ _ _ (by rw [hPlen]; omega)]
    congr 1
    rw [show ea + HA.length - HL.length -
        (applyHunk (f.take (ea - 1)) ⟨⟨hr, HL⟩, ⟨ha, HA⟩⟩).length = 1 by rw [hPlen]; omega]
    rw [applyHunk_mk]
    simp [List.drop_drop]
  · -- case 2: `h` entirely below `e`'s added region; `h2` is `h` shifted down.
    obtain rfl := Option.some.inj hcomm
    have hceq : commuteEarlier ⟨⟨ea, EL⟩, ⟨ea, EA⟩⟩ ⟨⟨hr, HL⟩, ⟨ha, HA⟩⟩ =
        ⟨⟨ea, EL⟩, ⟨ea, EA⟩⟩ := by
      simp only [commuteEarlier, if_neg hc1]
    rw [hceq]
    have hswap : applyHunk f
        ⟨⟨((hr : Int) - ((EA.length : Int) - (EL.length : Int))).toNat, HL⟩,
         ⟨((ha : Int) - ((EA.length : Int) - (EL.length : Int))).toNat, HA⟩⟩ =
        applyHunk f ⟨⟨hr + EL.length - EA.length, HL⟩, ⟨0, HA⟩⟩ := by
      refine applyHunk_eq_of _ _ _ ?_ rfl rfl
      dsimp only
      omega
    rw [hswap]
    have hL1 : applyHunk f ⟨⟨hr + EL.length - EA.length, HL⟩, ⟨0, HA⟩⟩ =
        f.take (ea - 1 + EL.length) ++
          applyHunk (f.drop (ea - 1 + EL.length))
            ⟨⟨hr + EL.length - EA.length - (f.take (ea - 1 + EL.length)).length, HL⟩,
             ⟨0, HA⟩⟩ := by
      conv_lhs => rw [← List.take_append_drop (ea - 1 + EL.length) f]
      exact applyHunk_mk_append_right _ _ _ _ _ _ (by rw [List.length_take]; omega)
    rw [hL1,
      applyHunk_mk_append_left _ _ _ _ _ _ (by rw [List.length_take]; omega)]
    have hMid : applyHunk (f.take (ea - 1 + EL.length)) ⟨⟨ea, EL⟩, ⟨ea, EA⟩⟩ =
        f.take (ea - 1) ++ EA := by
      rw [applyHunk_mk, List.take_take,
        List.drop_eq_nil_of_le (by rw [List.length_take]; omega),
        show (ea - 1) ⊓ (ea - 1 + EL.length) = ea - 1 by omega]
      simp
    rw [hMid]
    have hR1 : applyHunk f ⟨⟨ea, EL⟩, ⟨ea, EA⟩⟩ =
        (f.take (ea - 1) ++ EA) ++ f.drop (ea - 1 + EL.length) := by
      rw [applyHunk_mk]
    rw [hR1,
      applyHunk_mk_append_right _ _ _ _ _ _
        (by rw [List.length_append, List.length_take]; omega)]
    congr 1
    refine applyHunk_eq_of _ _ _ ?_ rfl rfl
    dsimp only
    rw [List.length_take, List.length_append, List.length_take]
    omega
  · -- case 3 (pure insertion) is subsumed by cases 1 and 2: either half of
    -- its condition contradicts the failure of the matching earlier case
    exfalso
    omega
  · exfalso
    omega


/-- C1 (counterexample): the claim as stated — applying `E` then `H`
equals applying `H2 = commute(H, E)` then `E` with `E` unchanged — fails
when `H` commutes above `E` and changes the line count.  With
`F = ["a", "b"]`, `E` replacing line 2 by `"B"`, and `H` a pure insertion
of `"X"` before line 1, the kernel returns `H` unchanged, yet
`H(E(F)) = ["X", "a", "B"]` while `E(H2(F)) = ["X", "B", "b"]`. -/
theorem c1_counterexample :
    commute (Hunk.mk (Block.mk 1 []) (Block.mk 1 [[88]]))
        (Hunk.mk (Block.mk 2 [[98]]) (Block.mk 2 [[66]])) =
      some (Hunk.mk (Block.mk 1 []) (Block.mk 1 [[88]])) ∧
    applyHunk (applyHunk [[97], [98]] (Hunk.mk (Block.mk 2 [[98]]) (Block.mk 2 [[66]])))
        (Hunk.mk (Block.mk 1 []) (Block.mk 1 [[88]])) ≠
      applyHunk (applyHunk [[97], [98]] (Hunk.mk (Block.mk 1 []) (Block.mk 1 [[88]])))
        (Hunk.mk (Block.mk 2 [[98]]) (Block.mk 2 [[66]])) ∧
    (applyHunk (applyHunk [[97], [98]] (Hunk.mk (Block.mk 2 [[98]]) (Block.mk 2 [[66]])))
        (Hunk.mk (Block.mk 1 []) (Block.mk 1 [[88]]))).flatten ≠
      (applyHunk (applyHunk [[97], [98]] (Hunk.mk (Block.mk 1 []) (Block.mk 1 [[88]])))
        (Hunk.mk (Block.mk 2 [[98]]) (Block.mk 2 [[66]]))).flatten := by
  decide

/-- C1 (amended): for any non-conflicting hunks `E`, `H` on the same file
`F` — with `E` in consistent standalone coordinates
(`added.start = removed.start`, both starts 1-based, `E` within `F`) —
applying `E` then `H` yields the same lines, and hence the same byte
sequence, as applying `H2 = commute(H, E)` then `E2`, where `E2` is `E`
with both starts shifted by `H`'s net line delta when `H` lies entirely
above `E`'s added region, and `E2 = E` otherwise (`commuteEarlier`).  The
original claim, which reapplies `E` unchanged, is refuted by
`c1_counterexample`. -/
theorem c1_commutation_correct (f : List (List Nat)) (e h h2 : Hunk)
    (hea : e.added.start = e.removed.start)
    (her : 1 ≤ e.removed.start)
    (hhr : 1 ≤ h.removed.start)
    (hbound : e.removed.start - 1 + e.removed.lines.length ≤ f.length)
    (hcomm : commute h e = some h2) :
    applyHunk (applyHunk f h2) (commuteEarlier e h) = applyHunk (applyHunk f e) h ∧
    (applyHunk (applyHunk f h2) (commuteEarlier e h)).flatten =
      (applyHunk (applyHunk f e) h).flatten := by
  have hmain := commute_exchange f e h h2 hea her hhr hbound hcomm
  exact ⟨hmain, by rw [hmain]⟩

theorem c1_witness :
    applyHunk
        (applyHunk [[97], [98], [99], [100], [101]]
          (Hunk.mk (Block.mk 3 [[100]]) (Block.mk 3 [[68]])))
        (commuteEarlier (Hunk.mk (Block.mk 2 [[98]]) (Block.mk 2 [[66], [67]]))
          (Hunk.mk (Block.mk 4 [[100]]) (Block.mk 4 [[68]]))) =
      applyHunk
        (applyHunk [[97], [98], [99], [100], [101]]
          (Hunk.mk (Block.mk 2 [[98]]) (Block.mk 2 [[66], [67]])))
        (Hunk.mk (Block.mk 4 [[100]]) (Block.mk 4 [[68]])) :=
  (c1_commutation_correct [[97], [98], [99], [100], [101]]
    (Hunk.mk (Block.mk 2 [[98]]) (Block.mk 2 [[66], [67]]))
    (Hunk.mk (Block.mk 4 [[100]]) (Block.mk 4 [[68]]))
    (Hunk.mk (Block.mk 3 [[100]]) (Block.mk 3 [[68]]))
    (by decide) (by decide) (by decide) (by decide) (by decide)).1

theorem isUtf8Cont_ge {b : Nat} (h : isUtf8Cont b = true) : 0x80 ≤ b := by
  simp [isUtf8Cont] at h
  omega

theorem utf8Second3_ge {b1 b2 : Nat} (h : utf8Second3 b1 b2 = true) : 0x80 ≤ b2 := by
  unfold utf8Second3 at h
  split_ifs at h <;> simp [isUtf8Cont] at h <;> omega

theorem utf8Second4_ge {b1 b2 : Nat} (h : utf8Second4 b1 b2 = true) : 0x80 ≤ b2 := by
  unfold utf8Second4 at h
  split_ifs at h <;> simp [isUtf8Cont] at h <;> omega

theorem utf8Lossy_one {b : Nat} (t : List Nat) (hb : b ≤ 0x7F) :
    utf8Lossy (b :: t) = b :: utf8Lossy t := by
  match t with
  | [] => simp [utf8Lossy, hb]
  | [b2] => simp [utf8Lossy, hb]
  | [b2, b3] => simp [utf8Lossy, hb]
  | b2 :: b3 :: b4 :: t4 => simp [utf8Lossy, hb]

theorem utf8Lossy_two {b1 b2 : Nat} (t : List Nat) (h1 : 0xC2 ≤ b1) (h2 : b1 ≤ 0xDF)
    (hc : isUtf8Cont b2 = true) :
    utf8Lossy (b1 :: b2 :: t) = b1 :: b2 :: utf8Lossy t := by
  have hn7 : ¬b1 ≤ 0x7F := by omega
  match t with
  | [] => simp [utf8Lossy, hn7, h1, h2, hc]
  | [b3] => simp [utf8Lossy, hn7, h1, h2, hc]
  | b3 :: b4 :: t4 => simp [utf8Lossy, hn7, h1, h2, hc]

theorem utf8Lossy_three {b1 b2 b3 : Nat} (t : List Nat) (h1 : 0xE0 ≤ b1) (h2 : b1 ≤ 0xEF)
    (hs2 : utf8Second3 b1 b2 = true) (hc : isUtf8Cont b3 = true) :
    utf8Lossy (b1 :: b2 :: b3 :: t) = b1 :: b2 :: b3 :: utf8Lossy t := by
  have hn7 : ¬b1 ≤ 0x7F := by omega
  have hn2 : ¬(0xC2 ≤ b1 ∧ b1 ≤ 0xDF) := by omega
  match t with
  | [] => simp [utf8Lossy, hn7, hn2, h1, h2, hs2, hc]
  | b4 :: t4 => simp [utf8Lossy, hn7, hn2, h1, h2, hs2, hc]

theorem utf8Lossy_four {b1 b2 b3 b4 : Nat} (t : List Nat) (h1 : 0xF0 ≤ b1) (h2 : b1 ≤ 0xF4)
    (hs2 : utf8Second4 b1 b2 = true) (hc3 : isUtf8Cont b3 = true) (hc4 : isUtf8Cont b4 = true) :
    utf8Lossy (b1 :: b2 :: b3 :: b4 :: t) = b1 :: b2 :: b3 :: b4 :: utf8Lossy t := by
  have hn7 : ¬b1 ≤ 0x7F := by omega
  have hn2 : ¬(0xC2 ≤ b1 ∧ b1 ≤ 0xDF) := by omega
  have hn3 : ¬(0xE0 ≤ b1 ∧ b1 ≤ 0xEF) := by omega
  simp [utf8Lossy, hn7, hn2, hn3, h1, h2, hs2, hc3, hc4]

/-- `String::from_utf8_lossy` is the identity on well-formed UTF-8. -/
theorem utf8Lossy_of_valid {l : List Nat} (h : Utf8Valid l) : utf8Lossy l = l := by
  induction h with
  | nil => rfl
  | one hb _ ih => rw [utf8Lossy_one _ hb, ih]
  | two h1 h2 hc _ ih => rw [utf8Lossy_two _ h1 h2 hc, ih]
  | three h1 h2 hs2 hc _ ih => rw [utf8Lossy_three _ h1 h2 hs2 hc, ih]
  | four h1 h2 hs2 hc3 hc4 _ ih => rw [utf8Lossy_four _ h1 h2 hs2 hc3 hc4, ih]

/-- The suffix of a well-formed UTF-8 sequence after any occurrence of an
ASCII byte (here the path separator `47`) is well-formed. -/
theorem utf8Valid_suffix {l : List Nat} (h : Utf8Valid l) :
    ∀ (a r : List Nat), l = a ++ 47 :: r → Utf8Valid r := by
  induction h with
  | nil =>
    intro a r he
    exact absurd he (by simp)
  | one hb hv ih =>
    intro a r he
    match a with
    | [] =>
      simp only [List.nil_append, List.cons.injEq] at he
      exact he.2 ▸ hv
    | a0 :: a1 =>
      simp only [List.cons_append, List.cons.injEq] at he
      exact ih a1 r he.2
  | two h1 h2 hc hv ih =>
    intro a r he
    match a with
    | [] =>
      simp only [List.nil_append, List.cons.injEq] at he
      omega
    | [a0] =>
      simp only [List.cons_append, List.nil_append, List.cons.injEq] at he
      have := isUtf8Cont_ge hc
      omega
    | a0 :: a1 :: a2 =>
      simp only [List.cons_append, List.cons.injEq] at he
      exact ih a2 r he.2.2
  | three h1 h2 hs2 hc hv ih =>
    intro a r he
    match a with
    | [] =>
      simp only [List.nil_append, List.cons.injEq] at he
      omega
    | [a0] =>
      simp only [List.cons_append, List.nil_append, List.cons.injEq] at he
      have := utf8Second3_ge hs2
      omega
    | [a0, a1] =>
      simp only [List.cons_append, List.nil_append, List.cons.injEq] at he
      have := isUtf8Cont_ge hc
      omega
    | a0 :: a1 :: a2 :: a3 =>
      simp only [List.cons_append, List.cons.injEq] at he
      exact ih a3 r he.2.2.2
  | four h1 h2 hs2 hc3 hc4 hv ih =>
    intro a r he
    match a with
    | [] =>
      simp only [List.nil_append, List.cons.injEq] at he
      omega
    | [a0] =>
      simp only [List.cons_append, List.nil_append, List.cons.injEq] at he
      have := utf8Second4_ge hs2
      omega
    | [a0, a1] =>
      simp only [List.cons_append, List.nil_append, List.cons.injEq] at he
      have := isUtf8Cont_ge hc3
      omega
    | [a0, a1, a2] =>
      simp only [List.cons_append, List.nil_append, List.cons.injEq] at he
      have := isUtf8Cont_ge hc4
      omega
    | a0 :: a1 :: a2 :: a3 :: a4 =>
      simp only [List.cons_append, List.cons.injEq] at he
      exact ih a4 r he.2.2.2.2

theorem splitPath_ne_nil (l : List Nat) : splitPath l ≠ [] := by
  cases l with
  | nil => simp [splitPath]
  | cons b t =>
    by_cases hb : b = 47
    · simp [splitPath, hb]
    · simp only [splitPath, if_neg hb]
      cases h : splitPath t <;> simp

theorem joinSlash_cons_cons (b : Nat) (s : List Nat) (rest : List (List Nat)) :
    joinSlash ((b :: s) :: rest) = b :: joinSlash (s :: rest) := by
  cases rest <;> simp [joinSlash]

theorem joinSlash_splitPath (l : List Nat) : joinSlash (splitPath l) = l := by
  induction l with
  | nil => rfl
  | cons b t ih =>
    by_cases hb : b = 47
    · subst hb
      simp only [splitPath, if_pos rfl]
      cases h : splitPath t with
      | nil => exact absurd h (splitPath_ne_nil t)
      | cons s rest =>
        rw [h] at ih
        calc joinSlash ([] :: s :: rest) = 47 :: joinSlash (s :: rest) := rfl
          _ = 47 :: t := by rw [ih]
    · simp only [splitPath, if_neg hb]
      cases h : splitPath t with
      | nil => exact absurd h (splitPath_ne_nil t)
      | cons s rest =>
        rw [h] at ih
        rw [joinSlash_cons_cons, ih]

theorem splitPath_reconstruct (l : List Nat) (h : 1 < (splitPath l).length) :
    l = (splitPath l).headD [] ++ 47 :: joinSlash (splitPath l).tail := by
  have hj := joinSlash_splitPath l
  cases hs : splitPath l with
  | nil => exact absurd hs (splitPath_ne_nil l)
  | cons c cs =>
    cases cs with
    | nil =>
      rw [hs] at h
      simp at h
    | cons c2 cs2 =>
      rw [hs] at hj
      rw [← hj]
      rfl

/-- With a well-formed UTF-8 path the lossy conversion is the identity, so
the fueled tree patcher coincides with the byte-exact reference patcher. -/
theorem apply_go_eq_spec_go (fuel : Nat) :
    ∀ (base : TreeObj) (hunk : Hunk) (path : List Nat), Utf8Valid path →
      apply_hunk_to_tree_go fuel base hunk path =
        apply_hunk_to_tree_spec_go fuel base hunk path := by
  induction fuel with
  | zero =>
    intro base hunk path _
    rfl
  | succ n ih =>
    intro base hunk path hv
    cases base with
    | blob c => rfl
    | tree entries =>
      simp only [apply_hunk_to_tree_go, apply_hunk_to_tree_spec_go]
      rw [utf8Lossy_of_valid hv]
      by_cases hlen : 1 < (splitPath path).length
      · rw [if_pos hlen, if_pos hlen]
        have hvrest : Utf8Valid (joinSlash (splitPath path).tail) :=
          utf8Valid_suffix hv ((splitPath path).headD []) _ (splitPath_reconstruct path hlen)
        cases htg : treeGet entries ((splitPath path).headD []) with
        | none => rfl
        | some ms =>
          obtain ⟨mode, sub⟩ := ms
          cases sub with
          | blob c => rfl
          | tree es2 =>
            dsimp only
            rw [ih _ hunk _ hvrest]
      · rw [if_neg hlen, if_neg hlen]

/-- C9 (counterexample): path resolution in `apply_hunk_to_tree` is not
byte-exact for non-UTF-8 paths.  For the path `0xFF "/" "a"` and a base
tree holding a subtree literally named `0xFF`, the lossy conversion turns
the first component into the replacement character's bytes, the lookup
fails and the call errors, while the byte-exact reference patcher
succeeds. -/
theorem c9_counterexample :
    apply_hunk_to_tree
        (TreeObj.tree [([255], 16384, TreeObj.tree [([97], 33188, TreeObj.blob [98, 10])])])
        (Hunk.mk (Block.mk 1 [[98, 10]]) (Block.mk 1 [[99, 10]]))
        [255, 47, 97] =
      Except.error "could not find sub tree entry for path" ∧
    exceptIsOk
        (apply_hunk_to_tree_spec
          (TreeObj.tree [([255], 16384, TreeObj.tree [([97], 33188, TreeObj.blob [98, 10])])])
          (Hunk.mk (Block.mk 1 [[98, 10]]) (Block.mk 1 [[99, 10]]))
          [255, 47, 97]) = true :=
  ⟨rfl, rfl⟩

/-- C9 (amended): the driver compares paths as raw bytes (`by_new` returns
a patch only on exact byte equality of `new_path`), and `apply_hunk_to_tree`
resolves tree entries byte-exactly for every path that is well-formed UTF-8
(on such paths it coincides with the byte-exact reference patcher); for
paths with non-UTF-8 components the multi-component resolution goes through
the lossy conversion and is not byte-exact (`c9_counterexample`). -/
theorem c9_paths_as_bytes (base : TreeObj) (hunk : Hunk) (path : List Nat)
    (hv : Utf8Valid path) :
    apply_hunk_to_tree base hunk path = apply_hunk_to_tree_spec base hunk path ∧
    (∀ (patches : List Patch) (p : List Nat) (pat : Patch),
      by_new patches p = some pat → pat.new_path = p) := by
  constructor
  · exact apply_go_eq_spec_go (path.length + 1) base hunk path hv
  · intro patches p pat hfind
    unfold by_new at hfind
    have hb := @List.find?_some Patch (fun q : Patch => decide (q.new_path = p)) pat patches hfind
    exact of_decide_eq_true hb

theorem c9_witness :
    apply_hunk_to_tree
        (TreeObj.tree [([100], 16384, TreeObj.tree [([102], 33188, TreeObj.blob [97, 10])])])
        (Hunk.mk (Block.mk 1 [[97, 10]]) (Block.mk 1 [[65, 10]]))
        [100, 47, 102] =
      apply_hunk_to_tree_spec
        (TreeObj.tree [([100], 16384, TreeObj.tree [([102], 33188, TreeObj.blob [97, 10])])])
        (Hunk.mk (Block.mk 1 [[97, 10]]) (Block.mk 1 [[65, 10]]))
        [100, 47, 102] :=
  (c9_paths_as_bytes
    (TreeObj.tree [([100], 16384, TreeObj.tree [([102], 33188, TreeObj.blob [97, 10])])])
    (Hunk.mk (Block.mk 1 [[97, 10]]) (Block.mk 1 [[65, 10]]))
    [100, 47, 102]
    (Utf8Valid.one (by decide)
      (Utf8Valid.one (by decide) (Utf8Valid.one (by decide) Utf8Valid.nil)))).1


/-- The commit step of `run` (`lib.rs` lines 151-165) as one equation:
with a destination found and the tree patch succeeding, the state gains
exactly one fixup commit and the rolling head moves to it. -/
theorem processHunk_commit (sig : String) (stack : List (Commit × List Patch))
    (oldPath : List Nat) (hunk : Hunk) (s : RunState) (dest : Commit) (es : List Event)
    (t : TreeObj)
    (hdest : findDest stack hunk oldPath = (some dest, es))
    (happly : apply_hunk_to_tree s.headTree hunk oldPath = Except.ok t) :
    processHunk false sig stack oldPath hunk s =
      Except.ok
        { headTree := t,
          headCommit := s.emitted.length + 1,
          emitted := s.emitted ++
            [{ message := fixupMessage dest, author := sig, committer := sig,
               tree := t, parent := s.headCommit }],
          log := (s.log ++ [Event.commutingHunk oldPath]) ++ es ++
            [Event.committed (s.emitted.length + 1)] } := by
  unfold processHunk
  rw [hdest]
  dsimp only
  rw [happly]
  rfl

/-- C4: whenever `dry_run` is false and a destination commit was found for
an index hunk, `run` creates exactly one commit: its message is exactly
`"fixup! "` followed by the destination's 40-hex id, a space, and the
destination's summary (`"<no message>"` when absent); its author and
committer are the configured signature; its sole parent is the current
head commit; and its tree is `apply_hunk_to_tree` applied to the current
rolling head tree, the original index hunk, and the index patch's
`old_path` — after which `head_tree` and `head_commit` are the new tree
and commit. -/
theorem c4_fixup_commit (sig : String) (stack : List (Commit × List Patch))
    (oldPath : List Nat) (hunk : Hunk) (s : RunState) (dest : Commit) (es : List Event)
    (t : TreeObj)
    (hdest : findDest stack hunk oldPath = (some dest, es))
    (happly : apply_hunk_to_tree s.headTree hunk oldPath = Except.ok t)
    (hid : isHex40 dest.id = true) :
    processHunk false sig stack oldPath hunk s =
      Except.ok
        { headTree := t,
          headCommit := s.emitted.length + 1,
          emitted := s.emitted ++
            [{ message := "fixup! " ++ dest.id ++ " " ++ dest.summary.getD "<no message>",
               author := sig, committer := sig, tree := t, parent := s.headCommit }],
          log := (s.log ++ [Event.commutingHunk oldPath]) ++ es ++
            [Event.committed (s.emitted.length + 1)] } :=
  processHunk_commit sig stack oldPath hunk s dest es t hdest happly

theorem c4_witness :
    isHex40 "0123456789abcdef0123456789abcdef01234567" = true ∧
    processHunk false "sig"
        [(Commit.mk "0123456789abcdef0123456789abcdef01234567" (some "add f"),
          [Patch.mk [102] [102] Delta.Added [Hunk.mk (Block.mk 1 []) (Block.mk 1 [[97, 10], [98, 10]])]])]
        [102] (Hunk.mk (Block.mk 1 [[97, 10]]) (Block.mk 1 [[65, 10]]))
        (RunState.mk (TreeObj.tree [([102], 33188, TreeObj.blob [97, 10, 98, 10])]) 0 [] []) =
      Except.ok
        (RunState.mk (TreeObj.tree [([102], 33188, TreeObj.blob [65, 10, 98, 10])]) 1
          [Emitted.mk "fixup! 0123456789abcdef0123456789abcdef01234567 add f" "sig" "sig"
            (TreeObj.tree [([102], 33188, TreeObj.blob [65, 10, 98, 10])]) 0]
          [Event.commutingHunk [102],
           Event.foundByAdd
             (Commit.mk "0123456789abcdef0123456789abcdef01234567" (some "add f")),
           Event.committed 1]) :=
  ⟨rfl,
   c4_fixup_commit "sig"
    [(Commit.mk "0123456789abcdef0123456789abcdef01234567" (some "add f"),
      [Patch.mk [102] [102] Delta.Added [Hunk.mk (Block.mk 1 []) (Block.mk 1 [[97, 10], [98, 10]])]])]
    [102] (Hunk.mk (Block.mk 1 [[97, 10]]) (Block.mk 1 [[65, 10]]))
    (RunState.mk (TreeObj.tree [([102], 33188, TreeObj.blob [97, 10, 98, 10])]) 0 [] [])
    (Commit.mk "0123456789abcdef0123456789abcdef01234567" (some "add f"))
    [Event.foundByAdd (Commit.mk "0123456789abcdef0123456789abcdef01234567" (some "add f"))]
    (TreeObj.tree [([102], 33188, TreeObj.blob [65, 10, 98, 10])])
    rfl rfl rfl⟩


/-- C7: during the newest-first stack walk, when the patch located by the
hunk's current path in a commit's diff has status `Added`, that commit is
the destination and the walk stops immediately — the result does not
depend on the remaining stack, no rename retranslation happens and no
commutation against that commit's hunks is attempted: the only event of
the step is the found-by-add event. -/
theorem c7_addition_blocker (c : Commit) (diff : List Patch)
    (rest : List (Commit × List Patch)) (hunk : Hunk) (path : List Nat) (np : Patch)
    (hfound : by_new diff path = some np)
    (hadd : np.status = Delta.Added) :
    findDest ((c, diff) :: rest) hunk path = (some c, [Event.foundByAdd c]) := by
  unfold findDest
  rw [hfound]
  dsimp only
  rw [if_pos hadd]

theorem c7_witness :
    findDest
        [(Commit.mk "0123456789abcdef0123456789abcdef01234567" (some "add f"),
          [Patch.mk [102] [102] Delta.Added
            [Hunk.mk (Block.mk 1 []) (Block.mk 1 [[97, 10], [98, 10]])]]),
         (Commit.mk "aaaaaaaaaaaaaaaaaaaaaaaaaaaaaaaaaaaaaaaa" none, [])]
        (Hunk.mk (Block.mk 1 [[97, 10]]) (Block.mk 1 [[65, 10]])) [102] =
      (some (Commit.mk "0123456789abcdef0123456789abcdef01234567" (some "add f")),
       [Event.foundByAdd (Commit.mk "0123456789abcdef0123456789abcdef01234567" (some "add f"))]) :=
  c7_addition_blocker
    (Commit.mk "0123456789abcdef0123456789abcdef01234567" (some "add f"))
    [Patch.mk [102] [102] Delta.Added [Hunk.mk (Block.mk 1 []) (Block.mk 1 [[97, 10], [98, 10]])]]
    [(Commit.mk "aaaaaaaaaaaaaaaaaaaaaaaaaaaaaaaaaaaaaaaa" none, [])]
    (Hunk.mk (Block.mk 1 [[97, 10]]) (Block.mk 1 [[65, 10]])) [102]
    (Patch.mk [102] [102] Delta.Added [Hunk.mk (Block.mk 1 []) (Block.mk 1 [[97, 10], [98, 10]])])
    rfl rfl

/-- C8: during the stack walk, when the patch located by the current path
has an `old_path` that differs from it (and its status is not `Added`),
the rename is logged and — after a successful commutation — the walk
continues over the rest of the stack with the patch's `old_path` as the
search path, so lookups in all older stack commits use the pre-rename
name. -/
theorem c8_rename_retranslation (c : Commit) (diff : List Patch)
    (rest : List (Commit × List Patch)) (hunk h2 : Hunk) (path : List Nat) (np : Patch)
    (hfound : by_new diff path = some np)
    (hnadd : ¬np.status = Delta.Added)
    (hren : path ≠ np.old_path)
    (hcomm : commute_diff_before hunk np.hunks = some h2) :
    findDest ((c, diff) :: rest) hunk path =
      ((findDest rest h2 np.old_path).1,
        Event.changedPath c np.old_path :: Event.commutedWith c ::
          (findDest rest h2 np.old_path).2) := by
  conv_lhs => rw [findDest.eq_def]
  dsimp only
  rw [hfound]
  dsimp only
  rw [if_neg hnadd, if_pos hren, hcomm]
  rfl

theorem c8_witness :
    findDest
        [(Commit.mk "bbbbbbbbbbbbbbbbbbbbbbbbbbbbbbbbbbbbbbbb" (some "rename g to f"),
          [Patch.mk [103] [102] Delta.Renamed []])]
        (Hunk.mk (Block.mk 1 [[97, 10]]) (Block.mk 1 [[65, 10]])) [102] =
      (none,
       [Event.changedPath
          (Commit.mk "bbbbbbbbbbbbbbbbbbbbbbbbbbbbbbbbbbbbbbbb" (some "rename g to f")) [103],
        Event.commutedWith
          (Commit.mk "bbbbbbbbbbbbbbbbbbbbbbbbbbbbbbbbbbbbbbbb" (some "rename g to f"))]) :=
  c8_rename_retranslation
    (Commit.mk "bbbbbbbbbbbbbbbbbbbbbbbbbbbbbbbbbbbbbbbb" (some "rename g to f"))
    [Patch.mk [103] [102] Delta.Renamed []] []
    (Hunk.mk (Block.mk 1 [[97, 10]]) (Block.mk 1 [[65, 10]]))
    (Hunk.mk (Block.mk 1 [[97, 10]]) (Block.mk 1 [[65, 10]])) [102]
    (Patch.mk [103] [102] Delta.Renamed [])
    rfl (by decide) (by decide) rfl

/-- The no-destination step of `run` (`lib.rs` lines 141-149): a hunk whose
walk finds no noncommutative commit emits no fixup, leaves the rolling head
untouched, logs the event, and the loop continues successfully. -/
theorem processHunk_noDest (dry : Bool) (sig : String) (stack : List (Commit × List Patch))
    (oldPath : List Nat) (hunk : Hunk) (s : RunState) (es : List Event)
    (hnd : findDest stack hunk oldPath = (none, es)) :
    processHunk dry sig stack oldPath hunk s =
      Except.ok
        { headTree := s.headTree, headCommit := s.headCommit, emitted := s.emitted,
          log := (s.log ++ [Event.commutingHunk oldPath]) ++ es ++ [Event.noDestination] } := by
  unfold processHunk
  rw [hnd]

/-- With an empty stack every hunk is a no-destination hunk: the whole run
succeeds, emits nothing, and leaves the head state unchanged. -/
theorem processHunks_empty_stack (dry : Bool) (sig : String) (oldPath : List Nat) :
    ∀ (hunks : List Hunk) (s : RunState), ∃ logs,
      processHunks dry sig [] oldPath hunks s =
        Except.ok { headTree := s.headTree, headCommit := s.headCommit,
                    emitted := s.emitted, log := logs } := by
  intro hunks
  induction hunks with
  | nil =>
    intro s
    exact ⟨s.log, rfl⟩
  | cons h hs ih =>
    intro s
    have hstep := processHunk_noDest dry sig [] oldPath h s [] rfl
    obtain ⟨logs, hrest⟩ := ih
      { headTree := s.headTree, headCommit := s.headCommit, emitted := s.emitted,
        log := (s.log ++ [Event.commutingHunk oldPath]) ++ [] ++ [Event.noDestination] }
    refine ⟨logs, ?_⟩
    unfold processHunks
    rw [hstep]
    exact hrest

theorem processPatches_empty_stack (dry : Bool) (sig : String) :
    ∀ (index : List Patch) (s : RunState), ∃ logs,
      processPatches dry sig [] index s =
        Except.ok { headTree := s.headTree, headCommit := s.headCommit,
                    emitted := s.emitted, log := logs } := by
  intro index
  induction index with
  | nil =>
    intro s
    exact ⟨s.log, rfl⟩
  | cons p ps ih =>
    intro s
    have hpatch : ∃ logs, processPatch dry sig [] p s =
        Except.ok { headTree := s.headTree, headCommit := s.headCommit,
                    emitted := s.emitted, log := logs } := by
      unfold processPatch
      cases hh : p.hunks with
      | nil => exact ⟨s.log, rfl⟩
      | cons h hs =>
        by_cases hst : p.status = Delta.Modified
        · rw [if_neg (by simp [hst])]
          have := processHunks_empty_stack dry sig p.old_path (h :: hs) s
          rw [← hh]
          rw [hh]
          exact this
        · rw [if_pos (by simp [hst])]
          exact ⟨s.log ++ [Event.skippedNonModified p.new_path p.status], rfl⟩
    obtain ⟨logs1, h1⟩ := hpatch
    obtain ⟨logs2, h2⟩ := ih
      { headTree := s.headTree, headCommit := s.headCommit, emitted := s.emitted, log := logs1 }
    refine ⟨logs2, ?_⟩
    unfold processPatches
    rw [h1]
    exact h2

/-- C6: a hunk that commutes with every commit in the stack gets no fixup:
the state is unchanged except for the log, which records the walk and the
no-destination event, and processing continues (the step returns success).
With an empty stack this holds for every hunk, and the whole run returns
success with no fixups emitted. -/
theorem c6_no_destination (dry : Bool) (sig : String) (stack : List (Commit × List Patch))
    (oldPath : List Nat) (hunk : Hunk) (s : RunState) (es : List Event)
    (index : List Patch) (t0 : TreeObj)
    (hnd : findDest stack hunk oldPath = (none, es)) :
    processHunk dry sig stack oldPath hunk s =
      Except.ok
        { headTree := s.headTree, headCommit := s.headCommit, emitted := s.emitted,
          log := (s.log ++ [Event.commutingHunk oldPath]) ++ es ++ [Event.noDestination] } ∧
    findDest ([] : List (Commit × List Patch)) hunk oldPath = (none, []) ∧
    (∃ logs, runModel dry sig [] index t0 =
      Except.ok { headTree := t0, headCommit := 0, emitted := [], log := logs }) := by
  refine ⟨processHunk_noDest dry sig stack oldPath hunk s es hnd, rfl, ?_⟩
  exact processPatches_empty_stack dry sig index (RunState.mk t0 0 [] [])

theorem c6_witness :
    processHunk false "sig"
        [(Commit.mk "0123456789abcdef0123456789abcdef01234567" (some "add f"),
          [Patch.mk [102] [102] Delta.Added
            [Hunk.mk (Block.mk 1 []) (Block.mk 1 [[97, 10], [98, 10]])]])]
        [103] (Hunk.mk (Block.mk 1 [[97, 10]]) (Block.mk 1 [[65, 10]]))
        (RunState.mk (TreeObj.tree [([102], 33188, TreeObj.blob [97, 10, 98, 10])]) 0 [] []) =
      Except.ok
        (RunState.mk (TreeObj.tree [([102], 33188, TreeObj.blob [97, 10, 98, 10])]) 0 []
          [Event.commutingHunk [103],
           Event.skippedNoPath
             (Commit.mk "0123456789abcdef0123456789abcdef01234567" (some "add f")),
           Event.noDestination]) :=
  (c6_no_destination false "sig"
    [(Commit.mk "0123456789abcdef0123456789abcdef01234567" (some "add f"),
      [Patch.mk [102] [102] Delta.Added [Hunk.mk (Block.mk 1 []) (Block.mk 1 [[97, 10], [98, 10]])]])]
    [103] (Hunk.mk (Block.mk 1 [[97, 10]]) (Block.mk 1 [[65, 10]]))
    (RunState.mk (TreeObj.tree [([102], 33188, TreeObj.blob [97, 10, 98, 10])]) 0 [] [])
    [Event.skippedNoPath (Commit.mk "0123456789abcdef0123456789abcdef01234567" (some "add f"))]
    [] (TreeObj.blob []) rfl).1


/-- The stack walk never logs a commit event. -/
theorem findDest_no_commit_events (stack : List (Commit × List Patch)) :
    ∀ (hunk : Hunk) (path : List Nat),
      ∀ e ∈ (findDest stack hunk path).2, e.isCommitted = false := by
  induction stack with
  | nil =>
    intro hunk path e he
    simp [findDest] at he
  | cons cd rest ih =>
    intro hunk path
    obtain ⟨c, diff⟩ := cd
    rw [findDest.eq_def]
    dsimp only
    cases hb : by_new diff path with
    | none =>
      dsimp only
      intro e he
      rw [List.mem_cons] at he
      rcases he with rfl | hmem
      · rfl
      · exact ih hunk path e hmem
    | some np =>
      dsimp only
      by_cases ha : np.status = Delta.Added
      · rw [if_pos ha]
        intro e he
        rw [List.mem_singleton] at he
        subst he
        rfl
      · rw [if_neg ha]
        cases hc : commute_diff_before hunk np.hunks with
        | some h2 =>
          intro e he
          dsimp only at he
          rcases List.mem_append.1 he with h1 | h2m
          · by_cases hp : path ≠ np.old_path
            · rw [if_pos hp, List.mem_singleton] at h1
              subst h1
              rfl
            · rw [if_neg hp] at h1
              simp at h1
          · rw [List.mem_cons] at h2m
            rcases h2m with rfl | hmem
            · rfl
            · exact ih h2 np.old_path e hmem
        | none =>
          intro e he
          dsimp only at he
          rcases List.mem_append.1 he with h1 | h2m
          · by_cases hp : path ≠ np.old_path
            · rw [if_pos hp, List.mem_singleton] at h1
              subst h1
              rfl
            · rw [if_neg hp] at h1
              simp at h1
          · rw [List.mem_singleton] at h2m
            subst h2m
            rfl

/-- A dry-run hunk step only logs: the head tree, head commit and emitted
list are unchanged, the step succeeds, and no commit event is logged. -/
theorem processHunk_dry (sig : String) (stack : List (Commit × List Patch))
    (oldPath : List Nat) (hunk : Hunk) (s : RunState) :
    ∃ es2, processHunk true sig stack oldPath hunk s =
        Except.ok { headTree := s.headTree, headCommit := s.headCommit,
                    emitted := s.emitted, log := s.log ++ es2 } ∧
      ∀ e ∈ es2, e.isCommitted = false := by
  have hes := findDest_no_commit_events stack hunk oldPath
  unfold processHunk
  rcases hfd : findDest stack hunk oldPath with ⟨d, es⟩
  rw [hfd] at hes
  dsimp only at hes
  cases d with
  | none =>
    refine ⟨[Event.commutingHunk oldPath] ++ es ++ [Event.noDestination], ?_, ?_⟩
    · simp [List.append_assoc]
    · intro e he
      rcases List.mem_append.1 he with h12 | h3
      · rcases List.mem_append.1 h12 with h1 | h2
        · rw [List.mem_singleton] at h1
          subst h1
          rfl
        · exact hes e h2
      · rw [List.mem_singleton] at h3
        subst h3
        rfl
  | some dest =>
    refine ⟨[Event.commutingHunk oldPath] ++ es ++ [Event.wouldHaveCommitted dest], ?_, ?_⟩
    · simp [List.append_assoc]
    · intro e he
      rcases List.mem_append.1 he with h12 | h3
      · rcases List.mem_append.1 h12 with h1 | h2
        · rw [List.mem_singleton] at h1
          subst h1
          rfl
        · exact hes e h2
      · rw [List.mem_singleton] at h3
        subst h3
        rfl

theorem processHunks_dry (sig : String) (stack : List (Commit × List Patch))
    (oldPath : List Nat) :
    ∀ (hunks : List Hunk) (s : RunState),
      ∃ es2, processHunks true sig stack oldPath hunks s =
          Except.ok { headTree := s.headTree, headCommit := s.headCommit,
                      emitted := s.emitted, log := s.log ++ es2 } ∧
        ∀ e ∈ es2, e.isCommitted = false := by
  intro hunks
  induction hunks with
  | nil =>
    intro s
    refine ⟨[], by simp [processHunks], by simp⟩
  | cons h hs ih =>
    intro s
    obtain ⟨es1, hstep, hall1⟩ := processHunk_dry sig stack oldPath h s
    obtain ⟨es2, hrest, hall2⟩ := ih
      { headTree := s.headTree, headCommit := s.headCommit, emitted := s.emitted,
        log := s.log ++ es1 }
    refine ⟨es1 ++ es2, ?_, ?_⟩
    · unfold processHunks
      rw [hstep]
      dsimp only
      rw [hrest]
      simp [List.append_assoc]
    · intro e he
      rcases List.mem_append.1 he with h1 | h2
      · exact hall1 e h1
      · exact hall2 e h2

theorem processPatch_dry (sig : String) (stack : List (Commit × List Patch))
    (p : Patch) (s : RunState) :
    ∃ es2, processPatch true sig stack p s =
        Except.ok { headTree := s.headTree, headCommit := s.headCommit,
                    emitted := s.emitted, log := s.log ++ es2 } ∧
      ∀ e ∈ es2, e.isCommitted = false := by
  unfold processPatch
  cases hh : p.hunks with
  | nil =>
    refine ⟨[], by simp, by simp⟩
  | cons h hs =>
    by_cases hst : p.status ≠ Delta.Modified
    · refine ⟨[Event.skippedNonModified p.new_path p.status], ?_, ?_⟩
      · rw [if_pos hst]
      · intro e he
        rw [List.mem_singleton] at he
        subst he
        rfl
    · rw [if_neg hst]
      exact processHunks_dry sig stack p.old_path (h :: hs) s

theorem processPatches_dry (sig : String) (stack : List (Commit × List Patch)) :
    ∀ (index : List Patch) (s : RunState),
      ∃ es2, processPatches true sig stack index s =
          Except.ok { headTree := s.headTree, headCommit := s.headCommit,
                      emitted := s.emitted, log := s.log ++ es2 } ∧
        ∀ e ∈ es2, e.isCommitted = false := by
  intro index
  induction index with
  | nil =>
    intro s
    refine ⟨[], by simp [processPatches], by simp⟩
  | cons p ps ih =>
    intro s
    obtain ⟨es1, hstep, hall1⟩ := processPatch_dry sig stack p s
    obtain ⟨es2, hrest, hall2⟩ := ih
      { headTree := s.headTree, headCommit := s.headCommit, emitted := s.emitted,
        log := s.log ++ es1 }
    refine ⟨es1 ++ es2, ?_, ?_⟩
    · unfold processPatches
      rw [hstep]
      dsimp only
      rw [hrest]
      simp [List.append_assoc]
    · intro e he
      rcases List.mem_append.1 he with h1 | h2
      · exact hall1 e h1
      · exact hall2 e h2

/-- C5: with `dry_run = true`, `run` writes no commits and never invokes
the tree patcher: for every stack, index and initial tree — including
trees on which `apply_hunk_to_tree` would fail — the run succeeds, the
rolling `head_tree` and `head_commit` are unchanged, no fixups are
emitted, and the log carries no commit event (destination hunks only log
the would-have-committed entry). -/
theorem c5_dry_run (sig : String) (stack : List (Commit × List Patch))
    (index : List Patch) (t0 : TreeObj) :
    resultHeadTree (runModel true sig stack index t0) = some t0 ∧
    resultHeadCommit (runModel true sig stack index t0) = some 0 ∧
    resultEmitted (runModel true sig stack index t0) = some [] ∧
    (resultLog (runModel true sig stack index t0)).map
      (fun l => l.all (fun e => !e.isCommitted)) = some true := by
  obtain ⟨es2, hrun, hall⟩ :=
    processPatches_dry sig stack index (RunState.mk t0 0 [] [])
  have hallb : es2.all (fun e => !e.isCommitted) = true := by
    rw [List.all_eq_true]
    intro x hx
    rw [hall x hx]
    rfl
  unfold runModel
  rw [show (⟨t0, 0, [], []⟩ : RunState) = RunState.mk t0 0 [] [] from rfl, hrun]
  simp [resultHeadTree, resultHeadCommit, resultEmitted, resultLog, hallb]


/-- A successful hunk step prepends onto the fold over the remaining
hunks. -/
theorem processHunks_cons_ok (dry : Bool) (sig : String)
    (stack : List (Commit × List Patch)) (oldPath : List Nat) (h : Hunk) (hs : List Hunk)
    (s s2 : RunState)
    (hstep : processHunk dry sig stack oldPath h s = Except.ok s2) :
    processHunks dry sig stack oldPath (h :: hs) s =
      processHunks dry sig stack oldPath hs s2 := by
  conv_lhs => rw [processHunks.eq_def]
  dsimp only
  rw [hstep]

/-- C10: when an index patch holds two hunks on the same file and both get
destinations, the second fixup's tree is the tree patcher applied to the
first fixup's tree with the second hunk at its original HEAD-relative
`removed.start` coordinate — no adjustment for the net line-count change
the first hunk introduced on the same file. -/
theorem c10_second_hunk_original_coords (sig : String)
    (stack : List (Commit × List Patch)) (op np : List Nat) (h1 h2 : Hunk)
    (t0 t1 t2 : TreeObj) (d1 d2 : Commit) (es1 es2 : List Event)
    (hd1 : findDest stack h1 op = (some d1, es1))
    (hd2 : findDest stack h2 op = (some d2, es2))
    (ha1 : apply_hunk_to_tree t0 h1 op = Except.ok t1)
    (ha2 : apply_hunk_to_tree t1 h2 op = Except.ok t2) :
    runModel false sig stack [Patch.mk op np Delta.Modified [h1, h2]] t0 =
      Except.ok
        (RunState.mk t2 2
          [Emitted.mk (fixupMessage d1) sig sig t1 0,
           Emitted.mk (fixupMessage d2) sig sig t2 1]
          ((([Event.commutingHunk op] ++ es1 ++ [Event.committed 1]) ++
              [Event.commutingHunk op]) ++ es2 ++ [Event.committed 2])) := by
  have hstep1 : processHunk false sig stack op h1 (RunState.mk t0 0 [] []) =
      Except.ok
        (RunState.mk t1 1 [Emitted.mk (fixupMessage d1) sig sig t1 0]
          ([Event.commutingHunk op] ++ es1 ++ [Event.committed 1])) :=
    processHunk_commit sig stack op h1 (RunState.mk t0 0 [] []) d1 es1 t1 hd1 ha1
  have hstep2 : processHunk false sig stack op h2
      (RunState.mk t1 1 [Emitted.mk (fixupMessage d1) sig sig t1 0]
        ([Event.commutingHunk op] ++ es1 ++ [Event.committed 1])) =
      Except.ok
        (RunState.mk t2 2
          [Emitted.mk (fixupMessage d1) sig sig t1 0,
           Emitted.mk (fixupMessage d2) sig sig t2 1]
          ((([Event.commutingHunk op] ++ es1 ++ [Event.committed 1]) ++
              [Event.commutingHunk op]) ++ es2 ++ [Event.committed 2])) :=
    processHunk_commit sig stack op h2
      (RunState.mk t1 1 [Emitted.mk (fixupMessage d1) sig sig t1 0]
        ([Event.commutingHunk op] ++ es1 ++ [Event.committed 1])) d2 es2 t2 hd2 ha2
  unfold runModel processPatches processPatch
  dsimp only
  rw [if_neg (by simp)]
  rw [processHunks_cons_ok false sig stack op h1 [h2] _ _ hstep1,
    processHunks_cons_ok false sig stack op h2 [] _ _ hstep2]
  rfl

theorem c10_witness :
    runModel false "sig"
        [(Commit.mk "0123456789abcdef0123456789abcdef01234567" (some "add f"),
          [Patch.mk [102] [102] Delta.Added
            [Hunk.mk (Block.mk 1 []) (Block.mk 1 [[97, 10], [98, 10], [99, 10]])]])]
        [Patch.mk [102] [102] Delta.Modified
          [Hunk.mk (Block.mk 1 [[97, 10]]) (Block.mk 1 [[65, 10]]),
           Hunk.mk (Block.mk 3 [[99, 10]]) (Block.mk 3 [[67, 10]])]]
        (TreeObj.tree [([102], 33188, TreeObj.blob [97, 10, 98, 10, 99, 10])]) =
      Except.ok
        (RunState.mk (TreeObj.tree [([102], 33188, TreeObj.blob [65, 10, 98, 10, 67, 10])]) 2
          [Emitted.mk
            (fixupMessage (Commit.mk "0123456789abcdef0123456789abcdef01234567" (some "add f")))
            "sig" "sig" (TreeObj.tree [([102], 33188, TreeObj.blob [65, 10, 98, 10, 99, 10])]) 0,
           Emitted.mk
            (fixupMessage (Commit.mk "0123456789abcdef0123456789abcdef01234567" (some "add f")))
            "sig" "sig" (TreeObj.tree [([102], 33188, TreeObj.blob [65, 10, 98, 10, 67, 10])]) 1]
          ((([Event.commutingHunk [102]] ++
              [Event.foundByAdd
                (Commit.mk "0123456789abcdef0123456789abcdef01234567" (some "add f"))] ++
              [Event.committed 1]) ++ [Event.commutingHunk [102]]) ++
            [Event.foundByAdd
              (Commit.mk "0123456789abcdef0123456789abcdef01234567" (some "add f"))] ++
            [Event.committed 2])) :=
  c10_second_hunk_original_coords "sig"
    [(Commit.mk "0123456789abcdef0123456789abcdef01234567" (some "add f"),
      [Patch.mk [102] [102] Delta.Added
        [Hunk.mk (Block.mk 1 []) (Block.mk 1 [[97, 10], [98, 10], [99, 10]])]])]
    [102] [102]
    (Hunk.mk (Block.mk 1 [[97, 10]]) (Block.mk 1 [[65, 10]]))
    (Hunk.mk (Block.mk 3 [[99, 10]]) (Block.mk 3 [[67, 10]]))
    (TreeObj.tree [([102], 33188, TreeObj.blob [97, 10, 98, 10, 99, 10])])
    (TreeObj.tree [([102], 33188, TreeObj.blob [65, 10, 98, 10, 99, 10])])
    (TreeObj.tree [([102], 33188, TreeObj.blob [65, 10, 98, 10, 67, 10])])
    (Commit.mk "0123456789abcdef0123456789abcdef01234567" (some "add f"))
    (Commit.mk "0123456789abcdef0123456789abcdef01234567" (some "add f"))
    [Event.foundByAdd (Commit.mk "0123456789abcdef0123456789abcdef01234567" (some "add f"))]
    [Event.foundByAdd (Commit.mk "0123456789abcdef0123456789abcdef01234567" (some "add f"))]
    rfl rfl rfl rfl


end Absorb
